import Mathlib

/-!
# gcalsync: policy admin, calendar listing and desync over the local index

A shallow embedding of `block.go`, `list.go` and `desync.go`.

The three relations of `.gcalsync.db` that the code reads and writes are lists of
rows in insertion order.  `INSERT` appends a row, `DELETE ... WHERE` drops every
matching row, `QueryRow(...).Scan` fails exactly when no row matches.  The store
itself is taken to work: the `log.Fatalf` branches that follow a failed
`openDB`, `Query`, `Exec` or `Scan` on an existing row are not part of the model.

Everything a function prints is a value of `Msg`, one constructor per
`Printf`/`Println`/`Fatalf` call of the source.  A function returns the lines it
printed, the index it leaves behind and the exit code of the process
(`0` for a normal return, `1` for `os.Exit(1)` and for `log.Fatalf`).
-/

namespace Gcalsync

/-! ## Data model -/

/-- Row of `calendars(account_name, calendar_id)`. -/
structure Calendar where
  account_name : String
  calendar_id : String
deriving DecidableEq, Repr

/-- Row of `calendar_blocks(source_calendar_id, target_calendar_id)`. -/
structure BlockEdge where
  source_calendar_id : String
  target_calendar_id : String
deriving DecidableEq, Repr

/-- Row of `blocker_events(event_id, calendar_id, account_name, origin_fingerprint,
last_seen_at)`.  The code under study reads the first three columns only. -/
structure BlockerEvent where
  event_id : String
  calendar_id : String
  account_name : String
  origin_fingerprint : String
  last_seen_at : Nat
deriving DecidableEq, Repr

/-- Contents of `.gcalsync.db` as far as the three commands touch it. -/
structure DB where
  calendars : List Calendar
  calendar_blocks : List BlockEdge
  blocker_events : List BlockerEvent
deriving DecidableEq, Repr

/-- Answer of one `calendarService.Events.Delete(...).Do()` call: `err == nil`,
a `*googleapi.Error` with its `Code`, or any other error value. -/
inductive Resp where
  | ok
  | http (code : Nat)
  | other
deriving DecidableEq, Repr

/-- The anonymous `struct { EventID, CalendarID string }` of `desync.go`. -/
structure EventRef where
  EventID : String
  CalendarID : String
deriving DecidableEq, Repr

/-- Lines written by the three source files, one constructor per print site. -/
inductive Msg where
  | sourceNotFound (s : String)
  | targetNotFound (t : String)
  | alreadyBlocked (s t : String)
  | blocked (s t : String)
  | runSyncHint
  | noRelationship (s t : String)
  | unblocked (s t : String)
  | blocksHeader
  | blockLine (s t : String)
  | noBlocks
  | calendarsHeader
  | calendarLine (account calendar : String) (numEvents : Nat)
  | relationshipsHeader
  | desyncStart
  | processing (n : Nat) (account : String)
  | clientError (account : String)
  | deleted (eventID : String)
  | notFound (eventID : String)
  | alreadyGone (eventID : String)
  | rateLimitRetry (seconds attempt : Nat)
  | tooManyRetry (seconds attempt : Nat)
  | rateLimitFatal (eventID : String)
  | tooManyFatal (eventID : String)
  | deleteFatal (eventID : String)
  | cleaningUp (n : Nat)
  | rowDeleted (eventID : String)
  | desynced
deriving DecidableEq, Repr

/-- What a command leaves behind: printed lines, index, process exit code. -/
structure Result where
  out : List Msg
  db : DB
  exitCode : Nat
deriving DecidableEq, Repr

/-! ## block.go -/

/-- Whether `SELECT 1 FROM calendars WHERE calendar_id = ?` returns a row. -/
def calendarExists (db : DB) (id : String) : Bool :=
  db.calendars.any (fun c => decide (c.calendar_id = id))

/-- Whether `SELECT 1 FROM calendar_blocks WHERE source_calendar_id = ? AND
target_calendar_id = ?` returns a row. -/
def blockExists (db : DB) (s t : String) : Bool :=
  db.calendar_blocks.any
    (fun e => decide (e.source_calendar_id = s) && decide (e.target_calendar_id = t))

/-- Statement `INSERT INTO calendar_blocks (source_calendar_id, target_calendar_id) VALUES (?, ?)`. -/
def insertBlock (db : DB) (s t : String) : DB :=
  { db with calendar_blocks := db.calendar_blocks ++ [⟨s, t⟩] }

/-- Statement `DELETE FROM calendar_blocks WHERE source_calendar_id = ? AND target_calendar_id = ?`. -/
def deleteBlock (db : DB) (s t : String) : DB :=
  let keep := fun (e : BlockEdge) =>
    !(decide (e.source_calendar_id = s) && decide (e.target_calendar_id = t))
  { db with calendar_blocks := db.calendar_blocks.filter keep }

/-- Body of `blockCalendar` for `os.Args[2] = s`, `os.Args[3] = t`. -/
def blockCalendar (db : DB) (s t : String) : Result :=
  if !calendarExists db s then
    ⟨[Msg.sourceNotFound s], db, 1⟩
  else if !calendarExists db t then
    ⟨[Msg.targetNotFound t], db, 1⟩
  else if blockExists db s t then
    ⟨[Msg.alreadyBlocked s t], db, 0⟩
  else
    ⟨[Msg.blocked s t, Msg.runSyncHint], insertBlock db s t, 0⟩

/-- Body of `unblockCalendar` for `os.Args[2] = s`, `os.Args[3] = t`.  `rowsAffected`
is the number of rows the `DELETE` matched. -/
def unblockCalendar (db : DB) (s t : String) : Result :=
  if !blockExists db s t then
    ⟨[Msg.noRelationship s t], db, 0⟩
  else
    let db1 := deleteBlock db s t
    let rowsAffected := db.calendar_blocks.length - db1.calendar_blocks.length
    if rowsAffected > 0 then
      ⟨[Msg.unblocked s t, Msg.runSyncHint], db1, 0⟩
    else
      ⟨[Msg.noRelationship s t], db1, 0⟩

/-- Lexicographic comparison of two texts character by character, a proper prefix
first: the order of SQLite's default `BINARY` collation on UTF-8 text. -/
def charsLt : List Char → List Char → Bool
  | _, [] => false
  | [], _ :: _ => true
  | a :: as, b :: bs =>
    decide (a.toNat < b.toNat) || (decide (a.toNat = b.toNat) && charsLt as bs)

/-- Text comparison `a < b` used by `ORDER BY`. -/
def textLt (a b : String) : Bool :=
  charsLt a.data b.data

/-- Clause `ORDER BY source_calendar_id, target_calendar_id` as a comparison of two rows. -/
def edgeLe (a b : BlockEdge) : Bool :=
  textLt a.source_calendar_id b.source_calendar_id ||
    (decide (a.source_calendar_id = b.source_calendar_id) &&
      !textLt b.target_calendar_id a.target_calendar_id)

/-- Query `SELECT source_calendar_id, target_calendar_id FROM calendar_blocks ORDER BY
source_calendar_id, target_calendar_id`. -/
def selectBlocks (db : DB) : List BlockEdge :=
  db.calendar_blocks.insertionSort (fun a b => edgeLe a b = true)

/-- The row loop shared by `listBlocks` and `listCalendars`: one line per edge, or
the "no blocks" line when `hasBlocks` stays false. -/
def blockLines (rows : List BlockEdge) : List Msg :=
  if rows.isEmpty then [Msg.noBlocks]
  else rows.map (fun e => Msg.blockLine e.source_calendar_id e.target_calendar_id)

/-- Body of `listBlocks`. -/
def listBlocks (db : DB) : Result :=
  ⟨Msg.blocksHeader :: blockLines (selectBlocks db), db, 0⟩

/-- Rows of a `SELECT DISTINCT` or the keys of a `GROUP BY`: every value once, at
the place of its first occurrence. -/
def distinct {α : Type} [DecidableEq α] : List α → List α
  | [] => []
  | x :: xs => x :: (distinct xs).filter (fun y => !decide (y = x))

/-! ## list.go -/

/-- Group key of `GROUP BY 1,2` over `blocker_events`: `(account_name, calendar_id)`. -/
structure GroupKey where
  account_name : String
  calendar_id : String
deriving DecidableEq, Repr

/-- The key of the group a `blocker_events` row falls in. -/
def groupKey (b : BlockerEvent) : GroupKey :=
  ⟨b.account_name, b.calendar_id⟩

/-- Ascending order of the group keys, the order in which the grouping emits them. -/
def keyLe (a b : GroupKey) : Bool :=
  textLt a.account_name b.account_name ||
    (decide (a.account_name = b.account_name) && !textLt b.calendar_id a.calendar_id)

/-- Column `count(1)` of the group of `k`: the number of `blocker_events` rows with that
account and calendar. -/
def numEvents (db : DB) (k : GroupKey) : Nat :=
  db.blocker_events.countP (fun b => decide (groupKey b = k))

/-- Query `SELECT account_name, calendar_id, count(1) as num_events FROM blocker_events
GROUP BY 1,2`: one result row per distinct key occurring in `blocker_events`. -/
def selectEventCounts (db : DB) : List (GroupKey × Nat) :=
  let keys := distinct (db.blocker_events.map groupKey)
  (keys.insertionSort (fun a b => keyLe a b = true)).map (fun k => (k, numEvents db k))

/-- The first row loop of `listCalendars`: one printed line per result row. -/
def calendarLines (db : DB) : List Msg :=
  (selectEventCounts db).map
    (fun r => Msg.calendarLine r.1.account_name r.1.calendar_id r.2)

/-- Body of `listCalendars`. -/
def listCalendars (db : DB) : Result :=
  ⟨Msg.calendarsHeader :: calendarLines db ++
      Msg.relationshipsHeader :: blockLines (selectBlocks db), db, 0⟩

/-! ## desync.go -/

/-- Steps of a desync run that the outside can observe, in the order they happen. -/
inductive Effect where
  | print (m : Msg)
  | tick
  | remoteDelete (account calendarID eventID : String) (r : Resp)
  | sleep (seconds : Nat)
  | dbDelete (eventID calendarID : String)
deriving DecidableEq, Repr

/-- Everything outside the process that a desync run depends on: the answer to the
`n`-th `Events.Delete` call of the run, whether `getClient` and
`calendar.NewService` deliver a service for an account, and the choices that fix
the iteration order of `range eventsByAccount`. -/
structure World where
  resp : Nat → Resp
  serviceOk : String → Bool
  pick : Nat → Nat

/-- Result row of `SELECT DISTINCT event_id, calendar_id, account_name`. -/
structure EventRow where
  event : EventRef
  account_name : String
deriving DecidableEq, Repr

/-- Query `SELECT DISTINCT event_id, calendar_id, account_name FROM blocker_events`. -/
def selectBlockerEvents (db : DB) : List EventRow :=
  distinct (db.blocker_events.map
    (fun b => (⟨⟨b.event_id, b.calendar_id⟩, b.account_name⟩ : EventRow)))

/-- Statement `eventsByAccount[accountName] = append(eventsByAccount[accountName], ...)` on a
map kept as a list of entries with distinct keys. -/
def appendEvent : List (String × List EventRef) → String → EventRef →
    List (String × List EventRef)
  | [], account, ev => [(account, [ev])]
  | (k, evs) :: rest, account, ev =>
    if k = account then (k, evs ++ [ev]) :: rest
    else (k, evs) :: appendEvent rest account ev

/-- The `rows.Next()` loop that fills `eventsByAccount`. -/
def groupByAccount (rows : List EventRow) : List (String × List EventRef) :=
  rows.foldl (fun m r => appendEvent m r.account_name r.event) []

/-- Iteration order of a Go map with `n` entries left: entry `pick i` (modulo the
number of entries left) comes next.  Every order arises from some `pick`. -/
def rangeOrder {α : Type} (pick : Nat → Nat) : Nat → Nat → List α → List α
  | 0, _, _ => []
  | _ + 1, _, [] => []
  | n + 1, i, x :: xs =>
    let k := pick i % (xs.length + 1)
    (x :: xs).getD k x :: rangeOrder pick n (i + 1) ((x :: xs).eraseIdx k)

/-- A remote answer after which the event counts as deleted: success, 404, 410. -/
def Resp.deleted : Resp → Bool
  | Resp.ok => true
  | Resp.http code => decide (code = 404) || decide (code = 410)
  | Resp.other => false

/-- How the retry loop of one event ends: the loop is left with `success` set or
not, or `log.Fatalf` ends the process. -/
inductive LoopExit where
  | finished (success : Bool)
  | fatal
deriving DecidableEq, Repr

/-- Outcome of the retry loop of one event. -/
structure LoopOut where
  trace : List Effect
  calls : Nat
  exit : LoopExit
deriving DecidableEq, Repr

/-- The loop `for attempt := 0; attempt < 3; attempt++` around `Events.Delete`.
The first argument is `3 - attempt`, the number of iterations the guard still
admits; `calls` counts the delete calls the run has issued so far. -/
def retryLoop (w : World) (account : String) (ev : EventRef) : Nat → Nat → Nat → LoopOut
  | 0, _, calls => ⟨[], calls, LoopExit.finished false⟩
  | rem + 1, attempt, calls =>
    let r := w.resp calls
    let call := Effect.remoteDelete account ev.CalendarID ev.EventID r
    match r with
    | Resp.ok =>
      ⟨[call, Effect.print (Msg.deleted ev.EventID)], calls + 1, LoopExit.finished true⟩
    | Resp.other =>
      ⟨[call, Effect.print (Msg.deleteFatal ev.EventID)], calls + 1, LoopExit.fatal⟩
    | Resp.http code =>
      if code = 404 then
        ⟨[call, Effect.print (Msg.notFound ev.EventID)], calls + 1, LoopExit.finished true⟩
      else if code = 410 then
        ⟨[call, Effect.print (Msg.alreadyGone ev.EventID)], calls + 1, LoopExit.finished true⟩
      else if code = 403 ∨ code = 429 then
        if attempt < 2 then
          let backoffDelay := 2 <<< (attempt + 1)
          let note := if code = 403 then Msg.rateLimitRetry backoffDelay (attempt + 1)
            else Msg.tooManyRetry backoffDelay (attempt + 1)
          let next := retryLoop w account ev rem (attempt + 1) (calls + 1)
          ⟨[call, Effect.print note, Effect.sleep backoffDelay] ++ next.trace,
            next.calls, next.exit⟩
        else
          let note := if code = 403 then Msg.rateLimitFatal ev.EventID
            else Msg.tooManyFatal ev.EventID
          ⟨[call, Effect.print note], calls + 1, LoopExit.fatal⟩
      else
        ⟨[call, Effect.print (Msg.deleteFatal ev.EventID)], calls + 1, LoopExit.fatal⟩

/-- State of the run while the events are processed: what happened so far, the
number of delete calls issued, `eventIDCalendarIDPairs`, and whether `log.Fatalf`
has ended the process. -/
structure Progress where
  trace : List Effect
  calls : Nat
  pairs : List EventRef
  fatal : Bool
deriving DecidableEq, Repr

/-- Body of `for _, event := range events`: wait for the ticker, run the retry
loop, and put the event on the cleanup list when `success` is set. -/
def processEvent (w : World) (account : String) (ev : EventRef) (st : Progress) : Progress :=
  let lo := retryLoop w account ev 3 0 st.calls
  let tr := st.trace ++ Effect.tick :: lo.trace
  match lo.exit with
  | LoopExit.fatal => ⟨tr, lo.calls, st.pairs, true⟩
  | LoopExit.finished true => ⟨tr, lo.calls, st.pairs ++ [ev], false⟩
  | LoopExit.finished false => ⟨tr, lo.calls, st.pairs, false⟩

/-- The loop `for _, event := range events` of one account. -/
def processEvents (w : World) (account : String) : List EventRef → Progress → Progress
  | [], st => st
  | ev :: evs, st =>
    let st1 := processEvent w account ev st
    if st1.fatal then st1 else processEvents w account evs st1

/-- The loop `for accountName, events := range eventsByAccount`, over the entries
in the order the map delivers them. -/
def processAccounts (w : World) : List (String × List EventRef) → Progress → Progress
  | [], st => st
  | (account, events) :: rest, st =>
    let tr := st.trace ++ [Effect.print (Msg.processing events.length account)]
    if !w.serviceOk account then
      ⟨tr ++ [Effect.print (Msg.clientError account)], st.calls, st.pairs, true⟩
    else
      let st1 := processEvents w account events ⟨tr, st.calls, st.pairs, false⟩
      if st1.fatal then st1 else processAccounts w rest st1

/-- Statement `DELETE FROM blocker_events WHERE event_id = ? AND calendar_id = ?`. -/
def deleteBlockerEvent (db : DB) (p : EventRef) : DB :=
  let keep := fun (b : BlockerEvent) =>
    !(decide (b.event_id = p.EventID) && decide (b.calendar_id = p.CalendarID))
  { db with blocker_events := db.blocker_events.filter keep }

/-- The loop `for _, pair := range eventIDCalendarIDPairs` that prunes the index. -/
def cleanup : List EventRef → DB → List Effect × DB
  | [], db => ([], db)
  | p :: ps, db =>
    let r := cleanup ps (deleteBlockerEvent db p)
    (Effect.dbDelete p.EventID p.CalendarID :: Effect.print (Msg.rowDeleted p.EventID) :: r.1,
      r.2)

/-- A finished desync run: what happened, the cleanup list, the index, the exit code. -/
structure Run where
  trace : List Effect
  pairs : List EventRef
  db : DB
  exitCode : Nat
deriving DecidableEq, Repr

/-- Body of `desyncCalendars` once the configuration is read and the index is open. -/
def desyncCalendars (db : DB) (w : World) : Run :=
  let eventsByAccount := groupByAccount (selectBlockerEvents db)
  let order := rangeOrder w.pick eventsByAccount.length 0 eventsByAccount
  let st := processAccounts w order ⟨[Effect.print Msg.desyncStart], 0, [], false⟩
  if st.fatal then
    ⟨st.trace, st.pairs, db, 1⟩
  else
    let c := cleanup st.pairs db
    ⟨st.trace ++ Effect.print (Msg.cleaningUp st.pairs.length) :: c.1 ++
        [Effect.print Msg.desynced], st.pairs, c.2, 0⟩

/-- Seconds slept, in order. -/
def sleeps : List Effect → List Nat
  | [] => []
  | Effect.sleep n :: es => n :: sleeps es
  | _ :: es => sleeps es

/-- Answers of the remote delete calls, in order. -/
def deleteAnswers : List Effect → List Resp
  | [] => []
  | Effect.remoteDelete _ _ _ r :: es => r :: deleteAnswers es
  | _ :: es => deleteAnswers es

/-- The answers of `case 403, 429` in the retry loop: HTTP 403 and HTTP 429. -/
def Resp.rateLimited : Resp → Bool
  | Resp.http code => decide (code = 403) || decide (code = 429)
  | _ => false

/-- Invariant I3: both endpoints of every policy edge are registered calendars. -/
def I3 (db : DB) : Prop :=
  ∀ e ∈ db.calendar_blocks,
    calendarExists db e.source_calendar_id = true ∧
      calendarExists db e.target_calendar_id = true

/-- What the processing loops maintain: every pair on the cleanup list has a remote
delete call in the trace that was answered with success, 404 or 410, and the trace
holds no index deletion. -/
def Settled (st : Progress) : Prop :=
  (∀ p ∈ st.pairs, ∃ a r, Effect.remoteDelete a p.CalendarID p.EventID r ∈ st.trace ∧
    r.deleted = true) ∧
  (∀ e c, Effect.dbDelete e c ∉ st.trace)

/-- What the processing loops maintain as well: the event of every remote delete
call that was answered with success, 404 or 410 is on the cleanup list. -/
def Listed (st : Progress) : Prop :=
  ∀ a c e r, Effect.remoteDelete a c e r ∈ st.trace → r.deleted = true →
    (⟨e, c⟩ : EventRef) ∈ st.pairs

/-! ## Concrete index states and remote worlds -/

/-- A state with the edge `a → b` between two registered calendars. -/
def dbEdge : DB :=
  ⟨[⟨"me", "a"⟩, ⟨"me", "b"⟩], [⟨"a", "b"⟩], []⟩

/-- A state with two registered calendars and no policy edge. -/
def dbNoEdge : DB :=
  ⟨[⟨"me", "a"⟩, ⟨"me", "b"⟩], [], []⟩

/-- A state with no registered calendar and no policy edge. -/
def dbEmpty : DB :=
  ⟨[], [], []⟩

/-- A blocker event `e1` in calendar `T` of account `me`. -/
def rowE1 : BlockerEvent :=
  ⟨"e1", "T", "me", "fp1", 0⟩

/-- A blocker event `e2` in calendar `T` of account `me`. -/
def rowE2 : BlockerEvent :=
  ⟨"e2", "T", "me", "fp2", 0⟩

/-- The index after a first sync: calendars `C` and `T` of account `me`, the policy
edge `C → T`, and the two blocker events `e1` and `e2` in `T`. -/
def dbTwoEvents : DB :=
  ⟨[⟨"me", "C"⟩, ⟨"me", "T"⟩], [⟨"C", "T"⟩], [rowE1, rowE2]⟩

/-- A remote that reports the first deleted event as gone (410) and deletes every
later one, with every account's service available. -/
def wGoneThenOk : World :=
  ⟨fun n => if n = 0 then Resp.http 410 else Resp.ok, fun _ => true, fun _ => 0⟩

/-- A remote that deletes the first event and answers every later call with HTTP 500. -/
def wOkThenError : World :=
  ⟨fun n => if n = 0 then Resp.ok else Resp.http 500, fun _ => true, fun _ => 0⟩

/-- A remote that answers every delete call with HTTP 429. -/
def wTooMany : World :=
  ⟨fun _ => Resp.http 429, fun _ => true, fun _ => 0⟩

/-- A remote on which every delete call fails with a network error that is not a
`*googleapi.Error`. -/
def wNetwork : World :=
  ⟨fun _ => Resp.other, fun _ => true, fun _ => 0⟩

/-- A remote that answers the first delete call with HTTP 429 and fails every later
one with a network error that is not a `*googleapi.Error`. -/
def wTooManyThenNetwork : World :=
  ⟨fun n => if n = 0 then Resp.http 429 else Resp.other, fun _ => true, fun _ => 0⟩

/-! ## Lemmas on the policy table -/

theorem blockExists_iff (db : DB) (s t : String) :
    blockExists db s t = true ↔ (⟨s, t⟩ : BlockEdge) ∈ db.calendar_blocks := by
  unfold blockExists
  rw [List.any_eq_true]
  constructor
  · rintro ⟨e, he, h⟩
    simp only [Bool.and_eq_true, decide_eq_true_eq] at h
    obtain ⟨h1, h2⟩ := h
    cases e
    simp only at h1 h2
    subst h1 h2
    exact he
  · intro h
    exact ⟨_, h, by simp⟩

theorem mem_deleteBlock (db : DB) (s t : String) (e : BlockEdge) :
    e ∈ (deleteBlock db s t).calendar_blocks ↔ e ∈ db.calendar_blocks ∧ e ≠ ⟨s, t⟩ := by
  cases e with
  | mk a b =>
    simp only [deleteBlock, List.mem_filter, Bool.not_eq_true', Bool.and_eq_false_imp,
      decide_eq_true_eq, decide_eq_false_iff_not, ne_eq, BlockEdge.mk.injEq, not_and]

theorem deleteBlock_insertBlock (db : DB) (s t : String) (h : blockExists db s t = false) :
    deleteBlock (insertBlock db s t) s t = db := by
  have hno : ∀ e ∈ db.calendar_blocks, e ≠ (⟨s, t⟩ : BlockEdge) := by
    intro e he hEq
    have := (blockExists_iff db s t).2 (hEq ▸ he)
    rw [h] at this
    exact Bool.false_ne_true this
  cases db with
  | mk cs bs es =>
    simp only [deleteBlock, insertBlock, List.filter_append, DB.mk.injEq, true_and, and_true]
    have h1 : List.filter (fun (e : BlockEdge) =>
        !(decide (e.source_calendar_id = s) && decide (e.target_calendar_id = t))) bs = bs := by
      rw [List.filter_eq_self]
      intro e he
      have := hno e he
      cases e with
      | mk a b =>
        simp only [ne_eq, BlockEdge.mk.injEq, not_and] at this
        simp only [Bool.not_eq_true', Bool.and_eq_false_imp, decide_eq_true_eq,
          decide_eq_false_iff_not]
        exact this
    rw [h1]
    simp

theorem unblockCalendar_db (db : DB) (s t : String) :
    (unblockCalendar db s t).db = if blockExists db s t then deleteBlock db s t else db := by
  unfold unblockCalendar
  by_cases h : blockExists db s t = true
  · simp only [h, Bool.not_true, Bool.false_eq_true, if_false, if_true]
    split <;> rfl
  · simp only [Bool.not_eq_true] at h
    simp [h]

theorem blockCalendar_db (db : DB) (s t : String) :
    (blockCalendar db s t).db =
      if calendarExists db s = true ∧ calendarExists db t = true ∧ blockExists db s t = false
      then insertBlock db s t else db := by
  unfold blockCalendar
  cases calendarExists db s <;> cases calendarExists db t <;> cases blockExists db s t <;> simp

/-- C1 fails as stated: with the edge `a → b` already present, `blockCalendar` is a
warning no-op and `unblockCalendar` then removes the edge, so the relation and the
listing differ from what they were before. -/
theorem block_unblock_roundtrip_fails :
    (blockCalendar dbEdge "a" "b").db = dbEdge ∧
    (unblockCalendar (blockCalendar dbEdge "a" "b").db "a" "b").db.calendar_blocks = [] ∧
    (unblockCalendar (blockCalendar dbEdge "a" "b").db "a" "b").db.calendar_blocks ≠
      dbEdge.calendar_blocks ∧
    (listBlocks (unblockCalendar (blockCalendar dbEdge "a" "b").db "a" "b").db).out ≠
      (listBlocks dbEdge).out := by
  decide

/-- C1 (amended): when the edge `(s, t)` is not in `calendar_blocks`, running
`blockCalendar s t` and then `unblockCalendar s t` leaves the whole index, and so the
output of `listBlocks`, as it was before. -/
theorem block_unblock_roundtrip (db : DB) (s t : String) (h : blockExists db s t = false) :
    (unblockCalendar (blockCalendar db s t).db s t).db = db ∧
    (listBlocks (unblockCalendar (blockCalendar db s t).db s t).db).out =
      (listBlocks db).out := by
  have key : (unblockCalendar (blockCalendar db s t).db s t).db = db := by
    rw [unblockCalendar_db, blockCalendar_db]
    by_cases hc : calendarExists db s = true ∧ calendarExists db t = true ∧
        blockExists db s t = false
    · rw [if_pos hc]
      have hin : blockExists (insertBlock db s t) s t = true := by
        rw [blockExists_iff]
        simp [insertBlock]
      rw [hin, if_pos rfl]
      exact deleteBlock_insertBlock db s t h
    · rw [if_neg hc, h]
      simp
  exact ⟨key, by rw [key]⟩

/-- Witness for `block_unblock_roundtrip`: two registered calendars, no edge. -/
theorem block_unblock_roundtrip_witness :
    blockExists dbNoEdge "a" "b" = false ∧
    (blockCalendar dbNoEdge "a" "b").db.calendar_blocks = [⟨"a", "b"⟩] ∧
    (unblockCalendar (blockCalendar dbNoEdge "a" "b").db "a" "b").db = dbNoEdge :=
  ⟨by decide, by decide, (block_unblock_roundtrip dbNoEdge "a" "b" (by decide)).1⟩

theorem calendarExists_calendars (db db1 : DB) (h : db1.calendars = db.calendars)
    (id : String) : calendarExists db1 id = calendarExists db id := by
  unfold calendarExists
  rw [h]

theorem blockCalendar_frame (db : DB) (s t : String) :
    (blockCalendar db s t).db.calendars = db.calendars ∧
    (blockCalendar db s t).db.blocker_events = db.blocker_events := by
  rw [blockCalendar_db]
  split <;> simp [insertBlock]

theorem unblockCalendar_frame (db : DB) (s t : String) :
    (unblockCalendar db s t).db.calendars = db.calendars ∧
    (unblockCalendar db s t).db.blocker_events = db.blocker_events := by
  rw [unblockCalendar_db]
  split <;> simp [deleteBlock]

theorem mem_blockCalendar (db : DB) (s t : String) (e : BlockEdge)
    (he : e ∈ (blockCalendar db s t).db.calendar_blocks) :
    e ∈ db.calendar_blocks ∨
      (e = ⟨s, t⟩ ∧ calendarExists db s = true ∧ calendarExists db t = true) := by
  rw [blockCalendar_db] at he
  by_cases hc : calendarExists db s = true ∧ calendarExists db t = true ∧
      blockExists db s t = false
  · rw [if_pos hc] at he
    simp only [insertBlock, List.mem_append, List.mem_singleton] at he
    rcases he with he | he
    · exact Or.inl he
    · exact Or.inr ⟨he, hc.1, hc.2.1⟩
  · rw [if_neg hc] at he
    exact Or.inl he

theorem mem_unblockCalendar (db : DB) (s t : String) (e : BlockEdge)
    (he : e ∈ (unblockCalendar db s t).db.calendar_blocks) : e ∈ db.calendar_blocks := by
  rw [unblockCalendar_db] at he
  split at he
  · exact ((mem_deleteBlock db s t e).1 he).1
  · exact he

/-- C6: `blockCalendar s t` adds no edge other than `(s, t)`, and adds it only when
both `s` and `t` are registered; `unblockCalendar` and `listBlocks` add no edge; none
of the three changes `calendars`; so each of them preserves invariant I3. -/
theorem policy_ops_preserve_I3 (db : DB) (s t : String) :
    (∀ e ∈ (blockCalendar db s t).db.calendar_blocks,
      e ∈ db.calendar_blocks ∨
        (e = ⟨s, t⟩ ∧ calendarExists db s = true ∧ calendarExists db t = true)) ∧
    (∀ e ∈ (unblockCalendar db s t).db.calendar_blocks, e ∈ db.calendar_blocks) ∧
    (listBlocks db).db = db ∧
    (blockCalendar db s t).db.calendars = db.calendars ∧
    (unblockCalendar db s t).db.calendars = db.calendars ∧
    (I3 db → I3 (blockCalendar db s t).db ∧ I3 (unblockCalendar db s t).db ∧
      I3 (listBlocks db).db) := by
  refine ⟨mem_blockCalendar db s t, mem_unblockCalendar db s t, rfl,
    (blockCalendar_frame db s t).1, (unblockCalendar_frame db s t).1, ?_⟩
  intro h
  refine ⟨?_, ?_, h⟩
  · intro e he
    rw [calendarExists_calendars db _ (blockCalendar_frame db s t).1,
      calendarExists_calendars db _ (blockCalendar_frame db s t).1]
    rcases mem_blockCalendar db s t e he with h1 | ⟨h1, h2, h3⟩
    · exact h e h1
    · subst h1
      exact ⟨h2, h3⟩
  · intro e he
    rw [calendarExists_calendars db _ (unblockCalendar_frame db s t).1,
      calendarExists_calendars db _ (unblockCalendar_frame db s t).1]
    exact h e (mem_unblockCalendar db s t e he)

/-- Witness for `policy_ops_preserve_I3`: adding the edge `a → b` between two
registered calendars keeps I3. -/
theorem policy_ops_preserve_I3_witness :
    I3 dbNoEdge ∧ (blockCalendar dbNoEdge "a" "b").db.calendar_blocks = [⟨"a", "b"⟩] ∧
    I3 (blockCalendar dbNoEdge "a" "b").db :=
  ⟨(by intro e he; cases he), (by decide),
    ((policy_ops_preserve_I3 dbNoEdge "a" "b").2.2.2.2.2 (by intro e he; cases he)).1⟩

/-- C7 fails as stated: with no calendar registered, `unblockCalendar a b` returns
normally with exit code 0, where `blockCalendar a b` is rejected with exit code 1. -/
theorem unblock_unregistered_not_rejected :
    calendarExists dbEmpty "a" = false ∧ calendarExists dbEmpty "b" = false ∧
    (unblockCalendar dbEmpty "a" "b").exitCode = 0 ∧
    (unblockCalendar dbEmpty "a" "b").exitCode ≠ 1 ∧
    (blockCalendar dbEmpty "a" "b").exitCode = 1 := by
  decide

/-- C7 (amended): for a pair in which `s` or `t` is not a registered calendar,
`blockCalendar s t` prints one line, exits with code 1 and leaves the index
unchanged, whereas `unblockCalendar s t` checks no registration: it exits with code
0, and when the edge is absent (as I3 guarantees for such a pair) it prints the one
"no blocking relationship" warning and leaves the index unchanged. -/
theorem unblock_unregistered_is_warning (db : DB) (s t : String)
    (h : calendarExists db s = false ∨ calendarExists db t = false) :
    ((blockCalendar db s t).exitCode = 1 ∧ (blockCalendar db s t).out.length = 1 ∧
      (blockCalendar db s t).db = db) ∧
    (unblockCalendar db s t).exitCode = 0 ∧
    (blockExists db s t = false →
      (unblockCalendar db s t).out = [Msg.noRelationship s t] ∧
        (unblockCalendar db s t).db = db) ∧
    (I3 db → blockExists db s t = false) := by
  refine ⟨?_, ?_, ?_, ?_⟩
  · unfold blockCalendar
    rcases h with h | h
    · simp [h]
    · cases hs : calendarExists db s <;> simp [h]
  · unfold unblockCalendar
    split
    · rfl
    · simp only []
      split <;> rfl
  · intro hb
    unfold unblockCalendar
    simp [hb]
  · intro h3
    cases hb : blockExists db s t with
    | false => rfl
    | true =>
      have hm := (blockExists_iff db s t).1 hb
      have := h3 _ hm
      simp only at this
      rcases h with h | h
      · rw [h] at this
        exact absurd this.1 (by decide)
      · rw [h] at this
        exact absurd this.2 (by decide)

/-- Witness for `unblock_unregistered_is_warning`: no calendar is registered. -/
theorem unblock_unregistered_is_warning_witness :
    calendarExists dbEmpty "a" = false ∧
    (blockCalendar dbEmpty "a" "b").exitCode = 1 ∧
    (unblockCalendar dbEmpty "a" "b").exitCode = 0 :=
  ⟨by decide,
    (unblock_unregistered_is_warning dbEmpty "a" "b" (Or.inl (by decide))).1.1,
    (unblock_unregistered_is_warning dbEmpty "a" "b" (Or.inl (by decide))).2.1⟩

/-- C8: for registered `s` and `t`, `blockCalendar s t` on an edge that is already
there returns normally with the "already blocked" warning and leaves the index
unchanged; `unblockCalendar s t` on an absent edge returns normally with the "no
relationship" warning and leaves the index unchanged; and in every case neither
operation changes `calendars` or `blocker_events`. -/
theorem warning_noops (db : DB) (s t : String) :
    (calendarExists db s = true → calendarExists db t = true →
      blockExists db s t = true →
      blockCalendar db s t = ⟨[Msg.alreadyBlocked s t], db, 0⟩) ∧
    (blockExists db s t = false →
      unblockCalendar db s t = ⟨[Msg.noRelationship s t], db, 0⟩) ∧
    ((blockCalendar db s t).db.calendars = db.calendars ∧
      (blockCalendar db s t).db.blocker_events = db.blocker_events) ∧
    ((unblockCalendar db s t).db.calendars = db.calendars ∧
      (unblockCalendar db s t).db.blocker_events = db.blocker_events) := by
  refine ⟨?_, ?_, blockCalendar_frame db s t, unblockCalendar_frame db s t⟩
  · intro h1 h2 h3
    simp [blockCalendar, h1, h2, h3]
  · intro h
    simp [unblockCalendar, h]

/-- Witness for `warning_noops`: blocking an edge that is there, unblocking one that
is not. -/
theorem warning_noops_witness :
    blockExists dbEdge "a" "b" = true ∧
    blockCalendar dbEdge "a" "b" = ⟨[Msg.alreadyBlocked "a" "b"], dbEdge, 0⟩ ∧
    blockExists dbNoEdge "a" "b" = false ∧
    unblockCalendar dbNoEdge "a" "b" = ⟨[Msg.noRelationship "a" "b"], dbNoEdge, 0⟩ :=
  ⟨by decide,
    (warning_noops dbEdge "a" "b").1 (by decide) (by decide) (by decide),
    by decide,
    (warning_noops dbNoEdge "a" "b").2.1 (by decide)⟩

/-! ## Lemmas on `distinct` and the calendar listing -/

theorem mem_distinct {α : Type} [DecidableEq α] (l : List α) (a : α) :
    a ∈ distinct l ↔ a ∈ l := by
  induction l with
  | nil => simp [distinct]
  | cons x xs ih =>
    simp only [distinct, List.mem_cons, List.mem_filter, ih, Bool.not_eq_true',
      decide_eq_false_iff_not]
    constructor
    · rintro (h | ⟨h, -⟩)
      · exact Or.inl h
      · exact Or.inr h
    · intro h
      by_cases hx : a = x
      · exact Or.inl hx
      · rcases h with h | h
        · exact Or.inl h
        · exact Or.inr ⟨h, hx⟩

theorem nodup_distinct {α : Type} [DecidableEq α] (l : List α) : (distinct l).Nodup := by
  induction l with
  | nil => simp [distinct]
  | cons x xs ih =>
    simp only [distinct, List.nodup_cons, List.mem_filter, Bool.not_eq_true',
      decide_eq_false_iff_not, not_and, not_not]
    exact ⟨fun _ => trivial, List.Nodup.filter _ ih⟩

theorem numEvents_pos_iff (db : DB) (k : GroupKey) :
    0 < numEvents db k ↔ k ∈ db.blocker_events.map groupKey := by
  unfold numEvents
  rw [List.countP_pos_iff]
  simp only [decide_eq_true_eq, List.mem_map]

theorem mem_selectEventCounts (db : DB) (k : GroupKey) (n : Nat) :
    (k, n) ∈ selectEventCounts db ↔ n = numEvents db k ∧ 0 < n := by
  simp only [selectEventCounts, List.mem_map, Prod.mk.injEq]
  constructor
  · rintro ⟨k1, hk, rfl, rfl⟩
    refine ⟨rfl, ?_⟩
    rw [numEvents_pos_iff]
    have h1 := (List.perm_insertionSort (fun a b => keyLe a b = true)
      (distinct (db.blocker_events.map groupKey))).mem_iff.1 hk
    exact (mem_distinct _ _).1 h1
  · rintro ⟨rfl, hpos⟩
    refine ⟨k, ?_, rfl, rfl⟩
    rw [numEvents_pos_iff] at hpos
    exact (List.perm_insertionSort (fun a b => keyLe a b = true)
      (distinct (db.blocker_events.map groupKey))).mem_iff.2 ((mem_distinct _ _).2 hpos)

theorem mem_calendarLines (db : DB) (a c : String) (n : Nat) :
    Msg.calendarLine a c n ∈ calendarLines db ↔ n = numEvents db ⟨a, c⟩ ∧ 0 < n := by
  simp only [calendarLines, List.mem_map, Msg.calendarLine.injEq]
  constructor
  · rintro ⟨⟨k, m⟩, hk, h1, h2, h3⟩
    cases k
    simp only at h1 h2 h3
    subst h1 h2 h3
    exact (mem_selectEventCounts db _ _).1 hk
  · intro h
    exact ⟨(⟨a, c⟩, n), (mem_selectEventCounts db _ _).2 h, rfl, rfl, rfl⟩

theorem nodup_calendarLines (db : DB) : (calendarLines db).Nodup := by
  unfold calendarLines selectEventCounts
  simp only [List.map_map]
  apply List.Nodup.map
  · intro k1 k2 h
    cases k1
    cases k2
    simp only [Function.comp, Msg.calendarLine.injEq] at h
    simp [h.1, h.2.1]
  · exact (List.perm_insertionSort (fun a b => keyLe a b = true) _).nodup_iff.2
      (nodup_distinct _)

theorem calendarLine_not_mem_blockLines (rows : List BlockEdge) (a c : String) (n : Nat) :
    Msg.calendarLine a c n ∉ blockLines rows := by
  unfold blockLines
  split <;> simp

theorem mem_listCalendars_out (db : DB) (a c : String) (n : Nat) :
    Msg.calendarLine a c n ∈ (listCalendars db).out ↔ Msg.calendarLine a c n ∈ calendarLines db := by
  have := calendarLine_not_mem_blockLines (selectBlocks db) a c n
  simp [listCalendars, this]

theorem count_listCalendars_out (db : DB) (a c : String) (n : Nat) :
    (listCalendars db).out.count (Msg.calendarLine a c n) =
      (calendarLines db).count (Msg.calendarLine a c n) := by
  have := calendarLine_not_mem_blockLines (selectBlocks db) a c n
  simp [listCalendars, List.count_cons, List.count_eq_zero_of_not_mem this]

/-- C9 fails as stated: with two registered calendars and no blocker event,
`listCalendars` prints no calendar line at all, where the claim wants one line with
count 0 for each of them. -/
theorem listCalendars_omits_registered :
    (⟨"me", "a"⟩ : Calendar) ∈ dbNoEdge.calendars ∧
    (listCalendars dbNoEdge).out =
      [Msg.calendarsHeader, Msg.relationshipsHeader, Msg.noBlocks] ∧
    Msg.calendarLine "me" "a" 0 ∉ (listCalendars dbNoEdge).out := by
  decide

/-- C9 (amended): the calendar section of `listCalendars` is computed from
`blocker_events` alone, whatever `calendars` holds: it has exactly one line for each
`(account_name, calendar_id)` that occurs in at least one `blocker_events` row,
showing the number of those rows (at least 1), and no other calendar line. -/
theorem listCalendars_lines (db : DB) :
    (∀ a c n, Msg.calendarLine a c n ∈ (listCalendars db).out ↔
      (n = numEvents db ⟨a, c⟩ ∧ 0 < n)) ∧
    (∀ a c, 0 < numEvents db ⟨a, c⟩ →
      (listCalendars db).out.count (Msg.calendarLine a c (numEvents db ⟨a, c⟩)) = 1) ∧
    (∀ cals, (listCalendars ⟨cals, db.calendar_blocks, db.blocker_events⟩).out =
      (listCalendars db).out) := by
  refine ⟨?_, ?_, ?_⟩
  · intro a c n
    rw [mem_listCalendars_out, mem_calendarLines]
  · intro a c h
    rw [count_listCalendars_out]
    exact List.count_eq_one_of_mem (nodup_calendarLines db)
      ((mem_calendarLines db a c _).2 ⟨rfl, h⟩)
  · intro cals
    rfl

/-- Witness for `listCalendars_lines`: two blocker events in calendar `T` of account
`me` give the one line `me T 2`. -/
theorem listCalendars_lines_witness :
    0 < numEvents dbTwoEvents ⟨"me", "T"⟩ ∧
    (listCalendars dbTwoEvents).out.count (Msg.calendarLine "me" "T" 2) = 1 :=
  ⟨by decide, (listCalendars_lines dbTwoEvents).2.1 "me" "T" (by decide)⟩

/-! ## Lemmas on the retry loop -/

theorem retryLoop_never_unsettled (w : World) (account : String) (ev : EventRef) :
    ∀ rem attempt calls, 0 < rem → 3 ≤ rem + attempt →
      (retryLoop w account ev rem attempt calls).exit ≠ LoopExit.finished false := by
  intro rem
  induction rem with
  | zero => intro attempt calls h; omega
  | succ rem ih =>
    intro attempt calls _ h3
    rw [retryLoop]
    cases w.resp calls with
    | ok => simp
    | other => simp
    | http code =>
      simp only []
      split
      · simp
      · split
        · simp
        · split
          · split
            · exact ih (attempt + 1) (calls + 1) (by omega) (by omega)
            · simp
          · simp

theorem retryLoop_success_called (w : World) (account : String) (ev : EventRef) :
    ∀ rem attempt calls,
      (retryLoop w account ev rem attempt calls).exit = LoopExit.finished true →
      ∃ r, Effect.remoteDelete account ev.CalendarID ev.EventID r ∈
          (retryLoop w account ev rem attempt calls).trace ∧ r.deleted = true := by
  intro rem
  induction rem with
  | zero => intro attempt calls h; simp [retryLoop] at h
  | succ rem ih =>
    intro attempt calls
    rw [retryLoop]
    cases hr : w.resp calls with
    | ok => intro _; exact ⟨Resp.ok, by simp, rfl⟩
    | other => simp
    | http code =>
      simp only []
      split
      · rename_i h404
        intro _
        exact ⟨Resp.http code, by simp, by simp [Resp.deleted, h404]⟩
      · split
        · rename_i h410
          intro _
          exact ⟨Resp.http code, by simp, by simp [Resp.deleted, h410]⟩
        · split
          · split
            · intro h
              obtain ⟨r, hr1, hr2⟩ := ih (attempt + 1) (calls + 1) h
              exact ⟨r, by simp [hr1], hr2⟩
            · simp
          · simp

theorem retryLoop_no_dbDelete (w : World) (account : String) (ev : EventRef) (e c : String) :
    ∀ rem attempt calls,
      Effect.dbDelete e c ∉ (retryLoop w account ev rem attempt calls).trace := by
  intro rem
  induction rem with
  | zero => intro attempt calls; simp [retryLoop]
  | succ rem ih =>
    intro attempt calls
    rw [retryLoop]
    cases w.resp calls with
    | ok => simp
    | other => simp
    | http code =>
      simp only []
      split
      · simp
      · split
        · simp
        · split
          · split
            · simpa using ih (attempt + 1) (calls + 1)
            · simp
          · simp

/-! ## Lemmas on the event and account loops -/

theorem Settled_extend (st : Progress) (tr : List Effect) (calls : Nat) (f : Bool)
    (h : Settled st) (htr : ∀ e c, Effect.dbDelete e c ∉ tr) :
    Settled ⟨st.trace ++ tr, calls, st.pairs, f⟩ := by
  refine ⟨?_, ?_⟩
  · intro p hp
    obtain ⟨a, r, h1, h2⟩ := h.1 p hp
    exact ⟨a, r, List.mem_append_left _ h1, h2⟩
  · intro e c hm
    rcases List.mem_append.1 hm with h1 | h1
    · exact h.2 e c h1
    · exact htr e c h1

theorem processEvent_settled (w : World) (account : String) (ev : EventRef) (st : Progress)
    (h : Settled st) : Settled (processEvent w account ev st) := by
  have hno : ∀ e c, Effect.dbDelete e c ∉
      Effect.tick :: (retryLoop w account ev 3 0 st.calls).trace := by
    intro e c hm
    rcases List.mem_cons.1 hm with h1 | h1
    · cases h1
    · exact retryLoop_no_dbDelete w account ev e c 3 0 st.calls h1
  unfold processEvent
  simp only []
  split
  · exact Settled_extend st _ _ _ h hno
  · rename_i hex
    have hbase := Settled_extend st _ (retryLoop w account ev 3 0 st.calls).calls false h hno
    refine ⟨?_, hbase.2⟩
    intro p hp
    rcases List.mem_append.1 hp with h1 | h1
    · exact hbase.1 p h1
    · rw [List.mem_singleton] at h1
      subst h1
      obtain ⟨r, hr1, hr2⟩ := retryLoop_success_called w account p 3 0 st.calls hex
      exact ⟨account, r, List.mem_append_right _ (List.mem_cons_of_mem _ hr1), hr2⟩
  · exact Settled_extend st _ _ _ h hno

theorem processEvents_settled (w : World) (account : String) :
    ∀ evs st, Settled st → Settled (processEvents w account evs st) := by
  intro evs
  induction evs with
  | nil => intro st h; exact h
  | cons ev evs ih =>
    intro st h
    rw [processEvents]
    split
    · exact processEvent_settled w account ev st h
    · exact ih _ (processEvent_settled w account ev st h)

theorem processAccounts_settled (w : World) :
    ∀ l st, Settled st → Settled (processAccounts w l st) := by
  intro l
  induction l with
  | nil => intro st h; exact h
  | cons x rest ih =>
    intro st h
    obtain ⟨account, events⟩ := x
    rw [processAccounts]
    simp only []
    have h1 : Settled ⟨st.trace ++ [Effect.print (Msg.processing events.length account)],
        st.calls, st.pairs, false⟩ :=
      Settled_extend st _ _ _ h (by intro e c hm; simp at hm)
    split
    · exact Settled_extend _ [Effect.print (Msg.clientError account)] st.calls true h1
        (by intro e c hm; simp at hm)
    · split
      · exact processEvents_settled w account events _ h1
      · exact ih _ (processEvents_settled w account events _ h1)

theorem processEvent_pairs (w : World) (account : String) (ev : EventRef) (st : Progress)
    (h : (processEvent w account ev st).fatal = false) :
    (processEvent w account ev st).pairs = st.pairs ++ [ev] := by
  have hne := retryLoop_never_unsettled w account ev 3 0 st.calls (by omega) (by omega)
  unfold processEvent at h ⊢
  simp only [] at h ⊢
  split
  · rename_i hex
    rw [hex] at h
    simp at h
  · rfl
  · rename_i hex
    exact absurd hex hne

theorem processEvents_pairs (w : World) (account : String) :
    ∀ evs st, (processEvents w account evs st).fatal = false →
      (processEvents w account evs st).pairs = st.pairs ++ evs := by
  intro evs
  induction evs with
  | nil => intro st _; simp [processEvents]
  | cons ev evs ih =>
    intro st h
    rw [processEvents] at h ⊢
    by_cases hf : (processEvent w account ev st).fatal = true
    · rw [if_pos hf] at h
      rw [hf] at h
      cases h
    · rw [if_neg hf] at h ⊢
      simp only [Bool.not_eq_true] at hf
      rw [ih _ h, processEvent_pairs w account ev st hf]
      simp

theorem processAccounts_pairs (w : World) :
    ∀ l st, (processAccounts w l st).fatal = false →
      ∀ x ∈ l, ∀ ev ∈ x.2, ev ∈ (processAccounts w l st).pairs := by
  intro l
  induction l with
  | nil => intro st _ x hx; cases hx
  | cons y rest ih =>
    intro st h
    obtain ⟨account, events⟩ := y
    rw [processAccounts] at h ⊢
    simp only [] at h ⊢
    by_cases hs : (!w.serviceOk account) = true
    · rw [if_pos hs] at h
      simp at h
    · rw [if_neg hs] at h ⊢
      by_cases hf : (processEvents w account events
          ⟨st.trace ++ [Effect.print (Msg.processing events.length account)],
            st.calls, st.pairs, false⟩).fatal = true
      · rw [if_pos hf] at h
        rw [hf] at h
        cases h
      · rw [if_neg hf] at h ⊢
        simp only [Bool.not_eq_true] at hf
        have hgrow : ∀ l2 st2, (processAccounts w l2 st2).fatal = false →
            ∀ p ∈ st2.pairs, p ∈ (processAccounts w l2 st2).pairs := by
          intro l2
          induction l2 with
          | nil => intro st2 _ p hp; exact hp
          | cons z rest2 ih2 =>
            intro st2 h2 p hp
            obtain ⟨acc2, evs2⟩ := z
            rw [processAccounts] at h2 ⊢
            simp only [] at h2 ⊢
            by_cases hs2 : (!w.serviceOk acc2) = true
            · rw [if_pos hs2] at h2
              simp at h2
            · rw [if_neg hs2] at h2 ⊢
              by_cases hf2 : (processEvents w acc2 evs2
                  ⟨st2.trace ++ [Effect.print (Msg.processing evs2.length acc2)],
                    st2.calls, st2.pairs, false⟩).fatal = true
              · rw [if_pos hf2] at h2
                rw [hf2] at h2
                cases h2
              · rw [if_neg hf2] at h2 ⊢
                simp only [Bool.not_eq_true] at hf2
                apply ih2 _ h2
                rw [processEvents_pairs w acc2 evs2 _ hf2]
                exact List.mem_append_left _ hp
        intro x hx ev hev
        rcases List.mem_cons.1 hx with hx1 | hx1
        · subst hx1
          apply hgrow _ _ h
          rw [processEvents_pairs w account events _ hf]
          exact List.mem_append_right _ hev
        · exact ih _ h x hx1 ev hev

/-! ## Lemmas on grouping, iteration order and cleanup -/

theorem appendEvent_mem_new (m : List (String × List EventRef)) (account : String)
    (ev : EventRef) : ∃ evs, (account, evs) ∈ appendEvent m account ev ∧ ev ∈ evs := by
  induction m with
  | nil => exact ⟨[ev], by simp [appendEvent], by simp⟩
  | cons x rest ih =>
    obtain ⟨k, evs⟩ := x
    rw [appendEvent]
    split
    · rename_i hk
      subst hk
      exact ⟨evs ++ [ev], by simp, by simp⟩
    · obtain ⟨evs1, h1, h2⟩ := ih
      exact ⟨evs1, List.mem_cons_of_mem _ h1, h2⟩

theorem appendEvent_mem_old (m : List (String × List EventRef)) (account : String)
    (ev : EventRef) (a : String) (e : EventRef)
    (h : ∃ evs, (a, evs) ∈ m ∧ e ∈ evs) :
    ∃ evs, (a, evs) ∈ appendEvent m account ev ∧ e ∈ evs := by
  induction m with
  | nil =>
    obtain ⟨evs, h1, _⟩ := h
    cases h1
  | cons x rest ih =>
    obtain ⟨k, evs0⟩ := x
    obtain ⟨evs, h1, h2⟩ := h
    rw [appendEvent]
    rcases List.mem_cons.1 h1 with h3 | h3
    · simp only [Prod.mk.injEq] at h3
      obtain ⟨rfl, rfl⟩ := h3
      split
      · exact ⟨evs ++ [ev], by simp, List.mem_append_left _ h2⟩
      · exact ⟨evs, by simp, h2⟩
    · split
      · exact ⟨evs, List.mem_cons_of_mem _ h3, h2⟩
      · obtain ⟨evs1, h4, h5⟩ := ih ⟨evs, h3, h2⟩
        exact ⟨evs1, List.mem_cons_of_mem _ h4, h5⟩

theorem foldl_appendEvent_mem (rows : List EventRow) (a : String) (e : EventRef) :
    ∀ m : List (String × List EventRef),
      ((∃ evs, (a, evs) ∈ m ∧ e ∈ evs) ∨ (⟨e, a⟩ : EventRow) ∈ rows) →
      ∃ evs, (a, evs) ∈ rows.foldl (fun m r => appendEvent m r.account_name r.event) m ∧
        e ∈ evs := by
  induction rows with
  | nil =>
    intro m h
    rcases h with h | h
    · exact h
    · cases h
  | cons r rows ih =>
    intro m h
    rw [List.foldl_cons]
    apply ih
    rcases h with h | h
    · exact Or.inl (appendEvent_mem_old m _ _ a e h)
    · rcases List.mem_cons.1 h with h1 | h1
      · left
        rw [← h1]
        exact appendEvent_mem_new m a e
      · exact Or.inr h1

theorem groupByAccount_mem (rows : List EventRow) (r : EventRow) (h : r ∈ rows) :
    ∃ evs, (r.account_name, evs) ∈ groupByAccount rows ∧ r.event ∈ evs :=
  foldl_appendEvent_mem rows r.account_name r.event [] (Or.inr h)

theorem mem_getD_cons_eraseIdx {α : Type} (l : List α) (k : Nat) (d a : α)
    (hk : k < l.length) : a ∈ l.getD k d :: l.eraseIdx k ↔ a ∈ l := by
  induction l generalizing k with
  | nil => simp at hk
  | cons x xs ih =>
    cases k with
    | zero => simp
    | succ k =>
      have hk1 : k < xs.length := by simpa using hk
      have := ih k hk1
      simp only [List.mem_cons, List.getD_cons_succ, List.eraseIdx_cons_succ] at this ⊢
      constructor
      · rintro (h | h | h)
        · exact Or.inr (this.1 (Or.inl h))
        · exact Or.inl h
        · exact Or.inr (this.1 (Or.inr h))
      · rintro (h | h)
        · exact Or.inr (Or.inl h)
        · rcases this.2 h with h1 | h1
          · exact Or.inl h1
          · exact Or.inr (Or.inr h1)

theorem mem_rangeOrder {α : Type} (pick : Nat → Nat) (a : α) :
    ∀ n i (l : List α), l.length ≤ n → (a ∈ rangeOrder pick n i l ↔ a ∈ l) := by
  intro n
  induction n with
  | zero =>
    intro i l h
    have : l = [] := List.length_eq_zero.1 (Nat.le_zero.1 h)
    subst this
    simp [rangeOrder]
  | succ n ih =>
    intro i l h
    cases l with
    | nil => simp [rangeOrder]
    | cons x xs =>
      have hk : pick i % (xs.length + 1) < (x :: xs).length := by
        simp only [List.length_cons]
        exact Nat.mod_lt _ (Nat.succ_pos _)
      have hlen : ((x :: xs).eraseIdx (pick i % (xs.length + 1))).length ≤ n := by
        rw [List.length_eraseIdx]
        simp only [List.length_cons] at h hk ⊢
        rw [if_pos hk]
        omega
      rw [rangeOrder]
      rw [List.mem_cons, ih (i + 1) _ hlen, ← List.mem_cons]
      exact mem_getD_cons_eraseIdx (x :: xs) _ x a hk

theorem cleanup_frame (ps : List EventRef) :
    ∀ db, (cleanup ps db).2.calendars = db.calendars ∧
      (cleanup ps db).2.calendar_blocks = db.calendar_blocks := by
  induction ps with
  | nil => intro db; exact ⟨rfl, rfl⟩
  | cons p ps ih =>
    intro db
    rw [cleanup]
    exact ih (deleteBlockerEvent db p)

theorem mem_cleanup (ps : List EventRef) (b : BlockerEvent) :
    ∀ db, b ∈ (cleanup ps db).2.blocker_events ↔
      b ∈ db.blocker_events ∧ (⟨b.event_id, b.calendar_id⟩ : EventRef) ∉ ps := by
  induction ps with
  | nil => intro db; simp [cleanup]
  | cons p ps ih =>
    intro db
    rw [cleanup]
    simp only []
    rw [ih (deleteBlockerEvent db p)]
    cases p with
    | mk e c =>
      simp only [deleteBlockerEvent, List.mem_filter, Bool.not_eq_true',
        Bool.and_eq_false_imp, decide_eq_true_eq, decide_eq_false_iff_not, List.mem_cons,
        EventRef.mk.injEq, not_or, not_and]
      tauto

theorem cleanup_sublist (ps : List EventRef) :
    ∀ db, List.Sublist (cleanup ps db).2.blocker_events db.blocker_events := by
  induction ps with
  | nil => intro db; exact List.Sublist.refl _
  | cons p ps ih =>
    intro db
    rw [cleanup]
    exact (ih (deleteBlockerEvent db p)).trans (List.filter_sublist _)

theorem mem_cleanup_trace (ps : List EventRef) (e c : String) :
    ∀ db, Effect.dbDelete e c ∈ (cleanup ps db).1 ↔ (⟨e, c⟩ : EventRef) ∈ ps := by
  induction ps with
  | nil => intro db; simp [cleanup]
  | cons p ps ih =>
    intro db
    rw [cleanup]
    simp only [List.mem_cons, Effect.dbDelete.injEq, ih (deleteBlockerEvent db p)]
    cases p with
    | mk e1 c1 =>
      simp only [EventRef.mk.injEq]
      constructor
      · rintro (h | h | h)
        · exact Or.inl h
        · cases h
        · exact Or.inr h
      · rintro (h | h)
        · exact Or.inl h
        · exact Or.inr (Or.inr h)

/-! ## Whole runs of `desyncCalendars` -/

theorem settled_start : Settled ⟨[Effect.print Msg.desyncStart], 0, [], false⟩ := by
  refine ⟨?_, ?_⟩
  · intro p hp
    cases hp
  · intro e c hm
    simp at hm

theorem prefix_of_append_eq {α : Type} (P Q pre post : List α) (x : α)
    (h : P ++ Q = pre ++ x :: post) (hx : x ∉ P) : ∃ q, pre = P ++ q := by
  rcases List.append_eq_append_iff.1 h with ⟨a, h1, _⟩ | ⟨c, h1, h2⟩
  · exact ⟨a, h1⟩
  · cases c with
    | nil => exact ⟨[], by simpa using h1.symm⟩
    | cons y c =>
      simp only [List.cons_append, List.cons.injEq] at h2
      exfalso
      apply hx
      rw [h1, h2.1]
      simp

theorem desync_all_on_list (db : DB) (w : World) (b : BlockerEvent)
    (hb : b ∈ db.blocker_events) (h : (desyncCalendars db w).exitCode = 0) :
    (⟨b.event_id, b.calendar_id⟩ : EventRef) ∈ (desyncCalendars db w).pairs := by
  have hrow : (⟨⟨b.event_id, b.calendar_id⟩, b.account_name⟩ : EventRow) ∈
      selectBlockerEvents db := by
    unfold selectBlockerEvents
    rw [mem_distinct]
    exact List.mem_map.2 ⟨b, hb, rfl⟩
  obtain ⟨evs, h1, h2⟩ := groupByAccount_mem _ _ hrow
  have h3 := (mem_rangeOrder w.pick (b.account_name, evs)
    (groupByAccount (selectBlockerEvents db)).length 0 _ (Nat.le_refl _)).2 h1
  unfold desyncCalendars at h ⊢
  simp only [] at h ⊢
  split at h
  · simp at h
  · rename_i hf
    simp only [Bool.not_eq_true] at hf
    rw [if_neg (by simp [hf])]
    exact processAccounts_pairs w _ _ hf _ h3 _ h2

/-- C2: whatever `blocker_events` holds and whatever the remote answers, a run of
`desyncCalendars` that returns normally leaves `blocker_events` empty; and the retry
loop of an event is never left with the event neither marked successful nor the run
aborted. -/
theorem desync_convergence (db : DB) (w : World) :
    ((desyncCalendars db w).exitCode = 0 → (desyncCalendars db w).db.blocker_events = []) ∧
    (∀ account ev calls,
      (retryLoop w account ev 3 0 calls).exit ≠ LoopExit.finished false) := by
  refine ⟨?_, ?_⟩
  · intro h
    rw [List.eq_nil_iff_forall_not_mem]
    intro b hb
    have hrun : (desyncCalendars db w).db =
        (cleanup (desyncCalendars db w).pairs db).2 := by
      unfold desyncCalendars at h ⊢
      simp only [] at h ⊢
      split at h
      · simp at h
      · rename_i hf
        rw [if_neg hf]
    rw [hrun, mem_cleanup] at hb
    exact hb.2 (desync_all_on_list db w b hb.1 h)
  · intro account ev calls
    exact retryLoop_never_unsettled w account ev 3 0 calls (by omega) (by omega)

/-- Witness for `desync_convergence`: desync with remote drift, one delete answered
`Gone` and one `OK`, ends with exit code 0 and an empty `blocker_events`. -/
theorem desync_convergence_witness :
    (desyncCalendars dbTwoEvents wGoneThenOk).exitCode = 0 ∧
    deleteAnswers (desyncCalendars dbTwoEvents wGoneThenOk).trace =
      [Resp.http 410, Resp.ok] ∧
    (desyncCalendars dbTwoEvents wGoneThenOk).db.blocker_events = [] :=
  ⟨by decide, by decide, (desync_convergence dbTwoEvents wGoneThenOk).1 (by decide)⟩

/-- C3 fails as stated: the remote deletes `e1` and then answers the delete of `e2`
with HTTP 500; the run aborts, and the row of `e1` is still in `blocker_events`
together with the row of `e2`. -/
theorem desync_abort_keeps_deleted_rows :
    (desyncCalendars dbTwoEvents wOkThenError).exitCode = 1 ∧
    Effect.remoteDelete "me" "T" "e1" Resp.ok ∈
      (desyncCalendars dbTwoEvents wOkThenError).trace ∧
    rowE1 ∈ (desyncCalendars dbTwoEvents wOkThenError).db.blocker_events ∧
    (desyncCalendars dbTwoEvents wOkThenError).db.blocker_events ≠ [rowE2] := by
  decide

/-- C3 (amended): a run of `desyncCalendars` that aborts removes no row: the index
is exactly what it was before the run, no index deletion has been issued, and so the
rows of all events, those already deleted remotely included, remain for a later
retry. -/
theorem desync_abort_keeps_index (db : DB) (w : World)
    (h : (desyncCalendars db w).exitCode ≠ 0) :
    (desyncCalendars db w).db = db ∧
    (∀ e c, Effect.dbDelete e c ∉ (desyncCalendars db w).trace) := by
  have hs := processAccounts_settled w
    (rangeOrder w.pick (groupByAccount (selectBlockerEvents db)).length 0
      (groupByAccount (selectBlockerEvents db)))
    _ settled_start
  unfold desyncCalendars at h ⊢
  simp only [] at h ⊢
  split
  · exact ⟨rfl, hs.2⟩
  · rename_i hf
    rw [if_neg hf] at h
    simp at h

/-- Witness for `desync_abort_keeps_index`: the run that aborts on HTTP 500 after
`e1` was deleted remotely leaves the index as it was. -/
theorem desync_abort_keeps_index_witness :
    (desyncCalendars dbTwoEvents wOkThenError).exitCode ≠ 0 ∧
    (desyncCalendars dbTwoEvents wOkThenError).db = dbTwoEvents :=
  ⟨by decide, (desync_abort_keeps_index dbTwoEvents wOkThenError (by decide)).1⟩

theorem desyncCalendars_cases (db : DB) (w : World) :
    ∃ st, Settled st ∧
      ((st.fatal = true ∧ desyncCalendars db w = ⟨st.trace, st.pairs, db, 1⟩) ∨
       (st.fatal = false ∧ desyncCalendars db w =
          ⟨st.trace ++ Effect.print (Msg.cleaningUp st.pairs.length) ::
              (cleanup st.pairs db).1 ++ [Effect.print Msg.desynced],
            st.pairs, (cleanup st.pairs db).2, 0⟩)) := by
  refine ⟨processAccounts w
    (rangeOrder w.pick (groupByAccount (selectBlockerEvents db)).length 0
      (groupByAccount (selectBlockerEvents db)))
    ⟨[Effect.print Msg.desyncStart], 0, [], false⟩,
    processAccounts_settled w _ _ settled_start, ?_⟩
  unfold desyncCalendars
  simp only []
  split
  · rename_i hf
    exact Or.inl ⟨hf, rfl⟩
  · rename_i hf
    simp only [Bool.not_eq_true] at hf
    exact Or.inr ⟨hf, rfl⟩

theorem desync_dbDelete_preceded (db : DB) (w : World) (pre post : List Effect)
    (e c : String) (h : (desyncCalendars db w).trace = pre ++ Effect.dbDelete e c :: post) :
    ∃ a r, Effect.remoteDelete a c e r ∈ pre ∧ r.deleted = true := by
  obtain ⟨st, hs, hrun⟩ := desyncCalendars_cases db w
  have hx : Effect.dbDelete e c ∈ (desyncCalendars db w).trace := by
    rw [h]
    simp
  rcases hrun with ⟨_, hrun⟩ | ⟨_, hrun⟩
  · rw [hrun] at hx
    exact absurd hx (hs.2 e c)
  · rw [hrun] at h hx
    simp only [List.append_assoc] at h hx
    obtain ⟨q, hq⟩ := prefix_of_append_eq _ _ _ _ _ h (hs.2 e c)
    rcases List.mem_append.1 hx with hx1 | hx1
    · exact absurd hx1 (hs.2 e c)
    · simp only [List.mem_cons, List.mem_append, List.mem_singleton, reduceCtorEq, false_or,
        or_false, mem_cleanup_trace, List.not_mem_nil] at hx1
      obtain ⟨a, r, h3, h4⟩ := hs.1 _ hx1
      exact ⟨a, r, by rw [hq]; exact List.mem_append_left _ h3, h4⟩

theorem desync_removed_has_dbDelete (db : DB) (w : World) (b : BlockerEvent)
    (hb : b ∈ db.blocker_events) (hr : b ∉ (desyncCalendars db w).db.blocker_events) :
    Effect.dbDelete b.event_id b.calendar_id ∈ (desyncCalendars db w).trace := by
  obtain ⟨st, _, hrun⟩ := desyncCalendars_cases db w
  rcases hrun with ⟨_, hrun⟩ | ⟨_, hrun⟩
  · rw [hrun] at hr
    exact absurd hb hr
  · rw [hrun] at hr ⊢
    simp only [] at hr
    rw [mem_cleanup] at hr
    have hp : (⟨b.event_id, b.calendar_id⟩ : EventRef) ∈ st.pairs := by
      by_contra hc
      exact hr ⟨hb, hc⟩
    simp only [List.mem_append, List.mem_cons, List.mem_singleton]
    exact Or.inl (Or.inr (Or.inr ((mem_cleanup_trace _ _ _ db).2 hp)))

theorem desync_sublist (db : DB) (w : World) :
    List.Sublist (desyncCalendars db w).db.blocker_events db.blocker_events := by
  unfold desyncCalendars
  simp only []
  split
  · exact List.Sublist.refl _
  · exact cleanup_sublist _ db

/-- C10: in every run of `desyncCalendars`, each index deletion for `(event_id,
calendar_id)` comes after a remote delete call for that event and calendar that was
answered with success, 404 or 410; a row that is gone after the run had such an index
deletion; a row none of whose remote delete calls was so answered (or that had none)
is still there; and the run only removes rows. -/
theorem index_deletion_follows_remote (db : DB) (w : World) :
    (∀ pre post e c,
      (desyncCalendars db w).trace = pre ++ Effect.dbDelete e c :: post →
      ∃ a r, Effect.remoteDelete a c e r ∈ pre ∧ r.deleted = true) ∧
    (∀ b ∈ db.blocker_events, b ∉ (desyncCalendars db w).db.blocker_events →
      ∃ pre post,
        (desyncCalendars db w).trace =
          pre ++ Effect.dbDelete b.event_id b.calendar_id :: post ∧
        ∃ a r, Effect.remoteDelete a b.calendar_id b.event_id r ∈ pre ∧
          r.deleted = true) ∧
    (∀ b ∈ db.blocker_events,
      (∀ a r, Effect.remoteDelete a b.calendar_id b.event_id r ∈
        (desyncCalendars db w).trace → r.deleted = false) →
      b ∈ (desyncCalendars db w).db.blocker_events) ∧
    List.Sublist (desyncCalendars db w).db.blocker_events db.blocker_events := by
  have second : ∀ b ∈ db.blocker_events, b ∉ (desyncCalendars db w).db.blocker_events →
      ∃ pre post,
        (desyncCalendars db w).trace =
          pre ++ Effect.dbDelete b.event_id b.calendar_id :: post ∧
        ∃ a r, Effect.remoteDelete a b.calendar_id b.event_id r ∈ pre ∧
          r.deleted = true := by
    intro b hb hr
    obtain ⟨pre, post, hsplit⟩ :=
      List.append_of_mem (desync_removed_has_dbDelete db w b hb hr)
    exact ⟨pre, post, hsplit, desync_dbDelete_preceded db w pre post _ _ hsplit⟩
  refine ⟨desync_dbDelete_preceded db w, second, ?_, desync_sublist db w⟩
  intro b hb hall
  by_contra hr
  obtain ⟨pre, post, hsplit, a, r, h1, h2⟩ := second b hb hr
  have h3 := hall a r (by rw [hsplit]; exact List.mem_append_left _ h1)
  rw [h2] at h3
  cases h3

/-- Witness for `index_deletion_follows_remote`: in the run with remote drift the
index deletion of `e1` comes after the delete call that was answered 410. -/
theorem index_deletion_follows_remote_witness :
    (desyncCalendars dbTwoEvents wGoneThenOk).trace =
      [Effect.print Msg.desyncStart, Effect.print (Msg.processing 2 "me"), Effect.tick,
        Effect.remoteDelete "me" "T" "e1" (Resp.http 410),
        Effect.print (Msg.alreadyGone "e1"), Effect.tick,
        Effect.remoteDelete "me" "T" "e2" Resp.ok, Effect.print (Msg.deleted "e2"),
        Effect.print (Msg.cleaningUp 2)] ++
      Effect.dbDelete "e1" "T" ::
        [Effect.print (Msg.rowDeleted "e1"), Effect.dbDelete "e2" "T",
          Effect.print (Msg.rowDeleted "e2"), Effect.print Msg.desynced] ∧
    ∃ a r, Effect.remoteDelete a "T" "e1" r ∈
        [Effect.print Msg.desyncStart, Effect.print (Msg.processing 2 "me"), Effect.tick,
          Effect.remoteDelete "me" "T" "e1" (Resp.http 410),
          Effect.print (Msg.alreadyGone "e1"), Effect.tick,
          Effect.remoteDelete "me" "T" "e2" Resp.ok, Effect.print (Msg.deleted "e2"),
          Effect.print (Msg.cleaningUp 2)] ∧ r.deleted = true :=
  ⟨by decide, (index_deletion_follows_remote dbTwoEvents wGoneThenOk).1
    [Effect.print Msg.desyncStart, Effect.print (Msg.processing 2 "me"), Effect.tick,
      Effect.remoteDelete "me" "T" "e1" (Resp.http 410),
      Effect.print (Msg.alreadyGone "e1"), Effect.tick,
      Effect.remoteDelete "me" "T" "e2" Resp.ok, Effect.print (Msg.deleted "e2"),
      Effect.print (Msg.cleaningUp 2)]
    [Effect.print (Msg.rowDeleted "e1"), Effect.dbDelete "e2" "T",
      Effect.print (Msg.rowDeleted "e2"), Effect.print Msg.desynced]
    "e1" "T" (by decide)⟩

/-! ## The retry schedule -/

theorem retryLoop_stop (w : World) (account : String) (ev : EventRef)
    (rem attempt calls : Nat)
    (h : (w.resp calls).rateLimited = false ∨ 2 ≤ attempt) :
    sleeps (retryLoop w account ev (rem + 1) attempt calls).trace = [] ∧
    deleteAnswers (retryLoop w account ev (rem + 1) attempt calls).trace = [w.resp calls] ∧
    (retryLoop w account ev (rem + 1) attempt calls).calls = calls + 1 := by
  rw [retryLoop]
  cases hr : w.resp calls with
  | ok => simp [sleeps, deleteAnswers]
  | other => simp [sleeps, deleteAnswers]
  | http code =>
    rw [hr] at h
    simp only []
    split
    · simp [sleeps, deleteAnswers]
    · split
      · simp [sleeps, deleteAnswers]
      · split
        · rename_i hc
          split
          · rename_i ha
            rcases h with h | h
            · simp only [Resp.rateLimited, Bool.or_eq_false_iff, decide_eq_false_iff_not] at h
              rcases hc with hc | hc
              · exact absurd hc h.1
              · exact absurd hc h.2
            · omega
          · simp [sleeps, deleteAnswers]
        · simp [sleeps, deleteAnswers]

theorem retryLoop_retry (w : World) (account : String) (ev : EventRef)
    (rem attempt calls : Nat)
    (h : (w.resp calls).rateLimited = true) (ha : attempt < 2) :
    sleeps (retryLoop w account ev (rem + 1) attempt calls).trace =
      2 <<< (attempt + 1) ::
        sleeps (retryLoop w account ev rem (attempt + 1) (calls + 1)).trace ∧
    deleteAnswers (retryLoop w account ev (rem + 1) attempt calls).trace =
      w.resp calls ::
        deleteAnswers (retryLoop w account ev rem (attempt + 1) (calls + 1)).trace ∧
    (retryLoop w account ev (rem + 1) attempt calls).calls =
      (retryLoop w account ev rem (attempt + 1) (calls + 1)).calls ∧
    (retryLoop w account ev (rem + 1) attempt calls).exit =
      (retryLoop w account ev rem (attempt + 1) (calls + 1)).exit := by
  rw [retryLoop]
  cases hr : w.resp calls with
  | ok => rw [hr] at h; simp [Resp.rateLimited] at h
  | other => rw [hr] at h; simp [Resp.rateLimited] at h
  | http code =>
    rw [hr] at h
    simp only [Resp.rateLimited, Bool.or_eq_true, decide_eq_true_eq] at h
    have h404 : code ≠ 404 := by omega
    have h410 : code ≠ 410 := by omega
    simp only [if_neg h404, if_neg h410, if_pos h, if_pos ha]
    simp [sleeps, deleteAnswers]

theorem retryLoop_exhausted (w : World) (account : String) (ev : EventRef)
    (rem attempt calls : Nat)
    (h : (w.resp calls).rateLimited = true) (ha : 2 ≤ attempt) :
    (retryLoop w account ev (rem + 1) attempt calls).exit = LoopExit.fatal := by
  rw [retryLoop]
  cases hr : w.resp calls with
  | ok => rw [hr] at h; simp [Resp.rateLimited] at h
  | other => rfl
  | http code =>
    rw [hr] at h
    simp only [Resp.rateLimited, Bool.or_eq_true, decide_eq_true_eq] at h
    have h404 : code ≠ 404 := by omega
    have h410 : code ≠ 410 := by omega
    have ha2 : ¬ attempt < 2 := by omega
    simp only [if_neg h404, if_neg h410, if_pos h, if_neg ha2]

/-- C5 fails as stated: when every delete call is answered HTTP 429 the first event
gets three calls in all, with waits of 4 and 8 seconds, and then the run aborts; and
when the call fails with a non-HTTP error the run aborts after that one call, with no
wait and no retry. -/
theorem retry_schedule_is_not_8_16_32 :
    deleteAnswers (desyncCalendars dbTwoEvents wTooMany).trace =
      [Resp.http 429, Resp.http 429, Resp.http 429] ∧
    sleeps (desyncCalendars dbTwoEvents wTooMany).trace = [4, 8] ∧
    sleeps (desyncCalendars dbTwoEvents wTooMany).trace ≠ [8, 16, 32] ∧
    (desyncCalendars dbTwoEvents wTooMany).exitCode = 1 ∧
    deleteAnswers (desyncCalendars dbTwoEvents wNetwork).trace = [Resp.other] ∧
    sleeps (desyncCalendars dbTwoEvents wNetwork).trace = [] ∧
    (desyncCalendars dbTwoEvents wNetwork).exitCode = 1 := by
  decide

/-- C5 (amended): the retry loop of an event issues at most three delete calls and
its waits are a prefix of 4, 8 seconds; when the call keeps being answered HTTP 403
or HTTP 429 it is retried twice after the first attempt, the waits before the first
and the second retry are exactly 4 and 8 seconds, and the run aborts when the third
attempt fails too; a failure that is not an HTTP error is not retried at whatever
attempt it occurs, the run aborts after that one call with no wait; and at every
attempt an answer other than HTTP 403 or 429 ends the loop after that call with no
wait. -/
theorem retry_schedule (w : World) (account : String) (ev : EventRef) (calls : Nat) :
    (sleeps (retryLoop w account ev 3 0 calls).trace <+: [4, 8] ∧
      (deleteAnswers (retryLoop w account ev 3 0 calls).trace).length ≤ 3) ∧
    ((w.resp calls).rateLimited = true → (w.resp (calls + 1)).rateLimited = true →
      (w.resp (calls + 2)).rateLimited = true →
      sleeps (retryLoop w account ev 3 0 calls).trace = [4, 8] ∧
        deleteAnswers (retryLoop w account ev 3 0 calls).trace =
          [w.resp calls, w.resp (calls + 1), w.resp (calls + 2)] ∧
        (retryLoop w account ev 3 0 calls).exit = LoopExit.fatal) ∧
    (∀ rem attempt n, w.resp n = Resp.other →
      retryLoop w account ev (rem + 1) attempt n =
          ⟨[Effect.remoteDelete account ev.CalendarID ev.EventID Resp.other,
              Effect.print (Msg.deleteFatal ev.EventID)], n + 1, LoopExit.fatal⟩ ∧
        sleeps (retryLoop w account ev (rem + 1) attempt n).trace = [] ∧
        deleteAnswers (retryLoop w account ev (rem + 1) attempt n).trace = [Resp.other]) ∧
    (∀ rem attempt n, (w.resp n).rateLimited = false →
      sleeps (retryLoop w account ev (rem + 1) attempt n).trace = [] ∧
        deleteAnswers (retryLoop w account ev (rem + 1) attempt n).trace = [w.resp n] ∧
        (retryLoop w account ev (rem + 1) attempt n).calls = n + 1) := by
  have s2 := retryLoop_stop w account ev 0 2 (calls + 2) (Or.inr (Nat.le_refl 2))
  refine ⟨?_, ?_, ?_, ?_⟩
  · cases h0 : (w.resp calls).rateLimited with
    | false =>
      obtain ⟨a1, a2, _⟩ := retryLoop_stop w account ev 2 0 calls (Or.inl h0)
      rw [a1, a2]
      exact ⟨⟨[4, 8], rfl⟩, by simp⟩
    | true =>
      obtain ⟨a1, a2, _, _⟩ := retryLoop_retry w account ev 2 0 calls h0 (by omega)
      rw [a1, a2]
      cases h1 : (w.resp (calls + 1)).rateLimited with
      | false =>
        obtain ⟨b1, b2, _⟩ := retryLoop_stop w account ev 1 1 (calls + 1) (Or.inl h1)
        rw [b1, b2]
        exact ⟨⟨[8], rfl⟩, by simp⟩
      | true =>
        obtain ⟨b1, b2, _, _⟩ := retryLoop_retry w account ev 1 1 (calls + 1) h1 (by omega)
        rw [b1, b2, s2.1, s2.2.1]
        exact ⟨⟨[], rfl⟩, by simp⟩
  · intro h0 h1 h2
    obtain ⟨a1, a2, _, a4⟩ := retryLoop_retry w account ev 2 0 calls h0 (by omega)
    obtain ⟨b1, b2, _, b4⟩ := retryLoop_retry w account ev 1 1 (calls + 1) h1 (by omega)
    rw [a1, a2, a4, b1, b2, b4, s2.1, s2.2.1]
    exact ⟨rfl, rfl, retryLoop_exhausted w account ev 0 2 (calls + 2) h2 (Nat.le_refl 2)⟩
  · intro rem attempt n h
    rw [retryLoop, h]
    simp [sleeps, deleteAnswers]
  · intro rem attempt n h
    exact retryLoop_stop w account ev rem attempt n (Or.inl h)

/-- Witness for `retry_schedule`: against a remote that always answers HTTP 429 the
loop waits 4 and 8 seconds and ends the run after the third call; and a network error
that answers the second attempt ends the run there, after one wait of 4 seconds. -/
theorem retry_schedule_witness :
    (wTooMany.resp 0).rateLimited = true ∧
    sleeps (retryLoop wTooMany "me" ⟨"e1", "T"⟩ 3 0 0).trace = [4, 8] ∧
    (retryLoop wTooMany "me" ⟨"e1", "T"⟩ 3 0 0).exit = LoopExit.fatal ∧
    wTooManyThenNetwork.resp 1 = Resp.other ∧
    retryLoop wTooManyThenNetwork "me" ⟨"e1", "T"⟩ 2 1 1 =
      ⟨[Effect.remoteDelete "me" "T" "e1" Resp.other, Effect.print (Msg.deleteFatal "e1")],
        2, LoopExit.fatal⟩ ∧
    sleeps (retryLoop wTooManyThenNetwork "me" ⟨"e1", "T"⟩ 3 0 0).trace = [4] ∧
    deleteAnswers (retryLoop wTooManyThenNetwork "me" ⟨"e1", "T"⟩ 3 0 0).trace =
      [Resp.http 429, Resp.other] :=
  ⟨by decide,
    ((retry_schedule wTooMany "me" ⟨"e1", "T"⟩ 0).2.1 (by decide) (by decide)
      (by decide)).1,
    ((retry_schedule wTooMany "me" ⟨"e1", "T"⟩ 0).2.1 (by decide) (by decide)
      (by decide)).2.2,
    by decide,
    ((retry_schedule wTooManyThenNetwork "me" ⟨"e1", "T"⟩ 0).2.2.1 1 1 1 (by decide)).1,
    by decide, by decide⟩

theorem retryLoop_calls (w : World) (account : String) (ev : EventRef) :
    ∀ rem attempt calls a c e r,
      Effect.remoteDelete a c e r ∈ (retryLoop w account ev rem attempt calls).trace →
      (c = ev.CalendarID ∧ e = ev.EventID) ∧
        (r.deleted = true →
          (retryLoop w account ev rem attempt calls).exit = LoopExit.finished true) := by
  intro rem
  induction rem with
  | zero => intro attempt calls a c e r h; simp [retryLoop] at h
  | succ rem ih =>
    intro attempt calls a c e r
    rw [retryLoop]
    cases w.resp calls with
    | ok =>
      intro h
      simp only [List.mem_cons, Effect.remoteDelete.injEq, reduceCtorEq, List.mem_singleton,
        List.not_mem_nil, or_false] at h
      exact ⟨⟨h.2.1, h.2.2.1⟩, fun _ => rfl⟩
    | other =>
      intro h
      simp only [List.mem_cons, Effect.remoteDelete.injEq, reduceCtorEq, List.mem_singleton,
        List.not_mem_nil, or_false] at h
      refine ⟨⟨h.2.1, h.2.2.1⟩, ?_⟩
      rw [h.2.2.2]
      intro hd
      simp [Resp.deleted] at hd
    | http code =>
      simp only []
      split
      · intro h
        simp only [List.mem_cons, Effect.remoteDelete.injEq, reduceCtorEq, List.mem_singleton,
          List.not_mem_nil, or_false] at h
        exact ⟨⟨h.2.1, h.2.2.1⟩, fun _ => rfl⟩
      · split
        · intro h
          simp only [List.mem_cons, Effect.remoteDelete.injEq, reduceCtorEq,
            List.mem_singleton, List.not_mem_nil, or_false] at h
          exact ⟨⟨h.2.1, h.2.2.1⟩, fun _ => rfl⟩
        · rename_i h404 h410
          have hnot : (Resp.http code).deleted = false := by
            simp [Resp.deleted, h404, h410]
          split
          · split
            · intro h
              simp only [List.cons_append, List.nil_append, List.mem_cons,
                Effect.remoteDelete.injEq, reduceCtorEq, false_or] at h
              rcases h with h | h
              · refine ⟨⟨h.2.1, h.2.2.1⟩, ?_⟩
                rw [h.2.2.2, hnot]
                intro hd
                cases hd
              · exact ih (attempt + 1) (calls + 1) a c e r h
            · intro h
              simp only [List.mem_cons, Effect.remoteDelete.injEq, reduceCtorEq,
                List.mem_singleton, List.not_mem_nil, or_false] at h
              refine ⟨⟨h.2.1, h.2.2.1⟩, ?_⟩
              rw [h.2.2.2, hnot]
              intro hd
              cases hd
          · intro h
            simp only [List.mem_cons, Effect.remoteDelete.injEq, reduceCtorEq,
              List.mem_singleton, List.not_mem_nil, or_false] at h
            refine ⟨⟨h.2.1, h.2.2.1⟩, ?_⟩
            rw [h.2.2.2, hnot]
            intro hd
            cases hd

theorem processEvent_listed (w : World) (account : String) (ev : EventRef) (st : Progress)
    (h : Listed st) : Listed (processEvent w account ev st) := by
  intro a c e r hm hd
  have key : Effect.remoteDelete a c e r ∈ st.trace ∨
      Effect.remoteDelete a c e r ∈ (retryLoop w account ev 3 0 st.calls).trace := by
    unfold processEvent at hm
    simp only [] at hm
    split at hm <;>
      simpa only [List.mem_append, List.mem_cons, reduceCtorEq, false_or] using hm
  rcases key with h1 | h1
  · have := h a c e r h1 hd
    unfold processEvent
    simp only []
    split
    · exact this
    · exact List.mem_append_left _ this
    · exact this
  · obtain ⟨⟨hc, he⟩, hex⟩ := retryLoop_calls w account ev 3 0 st.calls a c e r h1
    have hfin := hex hd
    unfold processEvent
    simp only []
    rw [hfin]
    simp only []
    apply List.mem_append_right
    rw [List.mem_singleton, hc, he]

theorem processEvents_listed (w : World) (account : String) :
    ∀ evs st, Listed st → Listed (processEvents w account evs st) := by
  intro evs
  induction evs with
  | nil => intro st h; exact h
  | cons ev evs ih =>
    intro st h
    rw [processEvents]
    split
    · exact processEvent_listed w account ev st h
    · exact ih _ (processEvent_listed w account ev st h)

theorem processAccounts_listed (w : World) :
    ∀ l st, Listed st → Listed (processAccounts w l st) := by
  intro l
  induction l with
  | nil => intro st h; exact h
  | cons x rest ih =>
    intro st h
    obtain ⟨account, events⟩ := x
    rw [processAccounts]
    simp only []
    have h1 : Listed ⟨st.trace ++ [Effect.print (Msg.processing events.length account)],
        st.calls, st.pairs, false⟩ := by
      intro a c e r hm hd
      simp only [List.mem_append, List.mem_singleton, reduceCtorEq, or_false] at hm
      exact h a c e r hm hd
    split
    · intro a c e r hm hd
      simp only [List.mem_append, List.mem_singleton, reduceCtorEq, or_false] at hm
      exact h a c e r hm hd
    · split
      · exact processEvents_listed w account events _ h1
      · exact ih _ (processEvents_listed w account events _ h1)

theorem remoteDelete_not_mem_cleanup (ps : List EventRef) (a c e : String) (r : Resp) :
    ∀ db, Effect.remoteDelete a c e r ∉ (cleanup ps db).1 := by
  induction ps with
  | nil => intro db; simp [cleanup]
  | cons p ps ih =>
    intro db
    rw [cleanup]
    simp only [List.mem_cons, reduceCtorEq, false_or]
    exact ih (deleteBlockerEvent db p)

theorem desync_listed (db : DB) (w : World) (a c e : String) (r : Resp)
    (hm : Effect.remoteDelete a c e r ∈ (desyncCalendars db w).trace)
    (hd : r.deleted = true) :
    (⟨e, c⟩ : EventRef) ∈ (desyncCalendars db w).pairs := by
  have hl : Listed (processAccounts w
      (rangeOrder w.pick (groupByAccount (selectBlockerEvents db)).length 0
        (groupByAccount (selectBlockerEvents db)))
      ⟨[Effect.print Msg.desyncStart], 0, [], false⟩) := by
    apply processAccounts_listed
    intro a c e r hm _
    simp at hm
  unfold desyncCalendars at hm ⊢
  simp only [] at hm ⊢
  split
  · rename_i hf
    rw [if_pos hf] at hm
    exact hl a c e r hm hd
  · rename_i hf
    rw [if_neg hf] at hm
    simp only [List.mem_append, List.mem_cons, List.mem_singleton, reduceCtorEq, false_or,
      or_false, List.not_mem_nil] at hm
    rcases hm with h1 | h1
    · exact hl a c e r h1 hd
    · exact absurd h1 (remoteDelete_not_mem_cleanup _ a c e r db)

/-- C4: when the first delete call for an event is answered 404 or 410, that call is
the only one the event gets: the loop body adds no wait and does not abort, and puts
the event's `(event_id, calendar_id)` on the cleanup list; and in a whole run every
delete call answered 404 or 410 has its event on the final cleanup list, so that no
row of that event is left when the run returns normally. -/
theorem missing_remote_event_no_retry (w : World) (account : String) (ev : EventRef)
    (st : Progress) (code : Nat) (hc : code = 404 ∨ code = 410)
    (hr : w.resp st.calls = Resp.http code) :
    processEvent w account ev st =
      ⟨st.trace ++ [Effect.tick,
          Effect.remoteDelete account ev.CalendarID ev.EventID (Resp.http code),
          Effect.print (if code = 404 then Msg.notFound ev.EventID
            else Msg.alreadyGone ev.EventID)],
        st.calls + 1, st.pairs ++ [ev], false⟩ ∧
    (∀ db a c e,
      Effect.remoteDelete a c e (Resp.http code) ∈ (desyncCalendars db w).trace →
      (⟨e, c⟩ : EventRef) ∈ (desyncCalendars db w).pairs ∧
        ((desyncCalendars db w).exitCode = 0 →
          ∀ b ∈ (desyncCalendars db w).db.blocker_events,
            ¬ (b.event_id = e ∧ b.calendar_id = c))) := by
  have hdel : (Resp.http code).deleted = true := by
    rcases hc with hc | hc <;> simp [Resp.deleted, hc]
  refine ⟨?_, ?_⟩
  · unfold processEvent
    rw [retryLoop, hr]
    rcases hc with hc | hc
    · subst hc
      simp
    · subst hc
      simp
  · intro db a c e hm
    have hp := desync_listed db w a c e _ hm hdel
    refine ⟨hp, ?_⟩
    intro h b hb hmatch
    obtain ⟨st1, _, hrun⟩ := desyncCalendars_cases db w
    rcases hrun with ⟨_, hrun⟩ | ⟨_, hrun⟩
    · rw [hrun] at h
      simp at h
    · rw [hrun] at hb hp
      simp only [] at hb hp
      rw [mem_cleanup] at hb
      apply hb.2
      rw [hmatch.1, hmatch.2]
      exact hp

/-- Witness for `missing_remote_event_no_retry`: the first event of the run with
remote drift is answered 410 and gets one call, no wait, and a place on the list, and
its row is gone when the run has returned. -/
theorem missing_remote_event_no_retry_witness :
    wGoneThenOk.resp 0 = Resp.http 410 ∧
    processEvent wGoneThenOk "me" ⟨"e1", "T"⟩ ⟨[], 0, [], false⟩ =
      ⟨[Effect.tick, Effect.remoteDelete "me" "T" "e1" (Resp.http 410),
          Effect.print (Msg.alreadyGone "e1")], 1, [⟨"e1", "T"⟩], false⟩ ∧
    Effect.remoteDelete "me" "T" "e1" (Resp.http 410) ∈
      (desyncCalendars dbTwoEvents wGoneThenOk).trace ∧
    (⟨"e1", "T"⟩ : EventRef) ∈ (desyncCalendars dbTwoEvents wGoneThenOk).pairs :=
  ⟨by decide,
    (missing_remote_event_no_retry wGoneThenOk "me" ⟨"e1", "T"⟩ ⟨[], 0, [], false⟩ 410
      (Or.inr rfl) (by decide)).1,
    by decide,
    ((missing_remote_event_no_retry wGoneThenOk "me" ⟨"e1", "T"⟩ ⟨[], 0, [], false⟩ 410
      (Or.inr rfl) (by decide)).2 dbTwoEvents "me" "T" "e1" (by decide)).1⟩

end Gcalsync
